import Mathlib

/-!
Verification of the nativefs copy/move engine (src/main.cc) against its
specification.  The C code is shallowly embedded: the filesystem is a finite
association of paths to files, the `read`/`write` syscalls are driven by
explicit result oracles, and open/stat/rename failures are injected through
explicit fault flags.  Callback activity is recorded as an event list.
-/

set_option autoImplicit false

namespace NativeFS

/-- A regular file in the model filesystem: byte content, permission mode
bits, and the id of the device that holds it. -/
structure File where
  content : List Nat
  mode : Nat
  dev : Nat
deriving Repr, DecidableEq

/-- Model filesystem: a finite association of paths to files. -/
abbrev FS := List (String × File)

/-- Look a path up in the model filesystem. -/
def fsLookup : FS → String → Option File
  | [], _ => none
  | (q, f) :: rest, p => if q = p then some f else fsLookup rest p

/-- Model of `remove(path)`: delete every entry at `p`. -/
def fsRemove : FS → String → FS
  | [], _ => []
  | (q, f) :: rest, p => if q = p then fsRemove rest p else (q, f) :: fsRemove rest p

/-- Create or overwrite the file at `p`. -/
def fsSet (fs : FS) (p : String) (f : File) : FS := (p, f) :: fsRemove fs p

/-- Model of `rename(src, dst)`: when `src` exists, move its file (content,
mode and device metadata travel with it) to `dst`; when `src` is missing the
call fails and the filesystem is unchanged. -/
def fsRename (fs : FS) (src dst : String) : FS :=
  match fsLookup fs src with
  | none => fs
  | some f => fsSet (fsRemove fs src) dst f

/-- One observable callback delivery: a progress update `(completed, total)`,
a successful completion `(null, true)` from `SendComplete`
(src/main.cc:155-161), or an error completion `(errorText, false)` from
`SendError` (src/main.cc:163-172). -/
inductive Ev where
  | progress (completed total : Nat)
  | complete
  | error
deriving Repr, DecidableEq

/-- Result of one `read` syscall: an error (`read` returned -1) or the bytes
delivered; `bytes []` is the 0 return that signals end of input. -/
inductive RRes where
  | err
  | bytes (bs : List Nat)
deriving Repr, DecidableEq

def BUFFER_SIZE : Nat := 16384

/-- Model of `doWrite` (src/main.cc:174-181).  `o` lists the results of the
successive underlying `write` calls: `none` is a -1 return, `some k` means the
call reported `k` bytes transferred (so the first `k` bytes of the chunk it
was handed landed in the file).  The model returns `none` when the oracle list
is exhausted before `doWrite` returns — each oracle entry is one write call,
so divergence shows up as no finite oracle sufficing.  Otherwise it returns
`(success?, bytes actually written, unconsumed oracle)`. -/
def doWrite : List (Option Nat) → List Nat → Option (Bool × List Nat × List (Option Nat))
  | [], _ => none
  | none :: rest, _ => some (false, [], rest)
  | some k :: rest, data =>
    if k < data.length then
      match doWrite rest (List.drop k data) with
      | none => none
      | some (ok, w, rest2) => some (ok, List.take k data ++ w, rest2)
    else
      some (true, data, rest)

/-- The first `n` results of the write behavior `b`, as an oracle list. -/
def doWriteTrace (b : Nat → Option Nat) (n : Nat) : List (Option Nat) :=
  (List.range n).map b

/-- The number of bytes still requested at the `i`-th underlying write call,
for a chunk of `len` bytes under write behavior `b`. -/
def remSeq (b : Nat → Option Nat) (len : Nat) : Nat → Nat
  | 0 => len
  | i + 1 =>
    match b i with
    | none => remSeq b len i
    | some k => remSeq b len i - k

/-- Model of `SendProgressUpdate` (src/main.cc:142-153): delivers nothing
unless a progress sink was supplied. -/
def sendProgress (up : Bool) (completed total : Nat) : List Ev :=
  if up then [Ev.progress completed total] else []

/-- Outcome of the fd-level copy loop: the callback deliveries in order, the
bytes written into the destination descriptor, and whether the loop left via
`SendComplete` (`success = true`) or via `copyByFdError`/`SendError`. -/
structure LoopOut where
  events : List Ev
  written : List Nat
  success : Bool
deriving Repr, DecidableEq

/-- Model of the fd-level `Copy` loop (src/main.cc:184-234) minus its
filesystem effects (which `streamCopyFS` applies).  `reads` lists the results
of the successive `read` calls, `ws` the results of the underlying `write`
calls; `progress` and `slu` are the `progress` and `sinceLastUpdate`
counters.  Returns `none` when an oracle is exhausted mid-run. -/
def copyLoop (up : Bool) (inputSize bytesPerUpdate : Nat) :
    List RRes → List (Option Nat) → Nat → Nat → Option LoopOut
  | [], _, _, _ => none
  | RRes.err :: _, _, _, _ => some ⟨[Ev.error], [], false⟩
  | RRes.bytes [] :: _, _, _, _ =>
      some ⟨sendProgress up inputSize inputSize ++ [Ev.complete], [], true⟩
  | RRes.bytes bs :: rest, ws, progress, slu =>
      match doWrite ws bs with
      | none => none
      | some (false, w, _) => some ⟨[Ev.error], w, false⟩
      | some (true, w, ws2) =>
          if slu + bs.length > bytesPerUpdate then
            match copyLoop up inputSize bytesPerUpdate rest ws2 (progress + bs.length) 0 with
            | none => none
            | some out =>
                some ⟨sendProgress up (progress + bs.length) inputSize ++ out.events,
                      w ++ out.written, out.success⟩
          else
            match copyLoop up inputSize bytesPerUpdate rest ws2
                (progress + bs.length) (slu + bs.length) with
            | none => none
            | some out => some ⟨out.events, w ++ out.written, out.success⟩

/-- Kind of a raw v8 argument, as far as `Args::Args` inspects it. -/
inductive ArgKind where
  | str
  | fn
  | other
deriving Repr, DecidableEq

/-- Which raw argument index feeds each callback slot of `Args`. -/
structure ArgsSel where
  updateProgress : Bool
  resultIdx : Nat
  progressIdx : Nat
deriving Repr, DecidableEq

/-- Model of `Args::Args` (src/main.cc:110-139): validate the raw argument
list and record which argument index becomes `ResultCallback` (the completion
sink fed by `SendComplete`/`SendError`) and which becomes `ProgressCallback`
(fed by `SendProgressUpdate`).  `none` models a thrown validation error. -/
def mkArgs (args : List ArgKind) : Option ArgsSel :=
  if args.length < 3 then none
  else if args[0]? ≠ some ArgKind.str then none
  else if args[1]? ≠ some ArgKind.str then none
  else if args[2]? ≠ some ArgKind.fn then none
  else if 3 < args.length ∧ args[3]? ≠ some ArgKind.fn then none
  else some { updateProgress := decide (3 < args.length),
              resultIdx := if 3 < args.length then 3 else 2,
              progressIdx := 2 }

/-- Injected failures for the `Copy` entry point's three fallible
metadata-level syscalls (src/main.cc:239-255). -/
structure CopyFaults where
  openSrcFail : Bool
  statSrcFail : Bool
  openDstFail : Bool
deriving Repr, DecidableEq

/-- Injected failures for the `Move` entry point's fallible metadata-level
syscalls (src/main.cc:269-305), including the `rename` at line 305. -/
structure MoveFaults where
  openSrcFail : Bool
  statSrcFail : Bool
  openDstFail : Bool
  statDstFail : Bool
  renameFail : Bool
deriving Repr, DecidableEq

/-- Outcome of a whole `Copy`/`Move` entry point: final filesystem, callback
deliveries in order, and how many descriptors the run opened and closed. -/
structure OpOut where
  fs : FS
  events : List Ev
  opened : Nat
  closed : Nat
deriving Repr, DecidableEq

/-- Mode bits the destination carries after `open(dst, O_WRONLY | O_CREAT |
O_TRUNC, srcMode)`: a pre-existing file keeps its mode, a created file gets
`srcMode` (POSIX applies the mode argument only on creation). -/
def dstOpenMode (fs : FS) (dst : String) (srcMode : Nat) : Nat :=
  match fsLookup fs dst with
  | some f => f.mode
  | none => srcMode

/-- Device the destination lives on after that open: a pre-existing file
keeps its device, a created file lands on `newDev`, the device of the
directory that holds `dst`. -/
def dstOpenDev (fs : FS) (dst : String) (newDev : Nat) : Nat :=
  match fsLookup fs dst with
  | some f => f.dev
  | none => newDev

/-- Apply the fd-level copy loop to the filesystem, as the tail of both entry
points does (src/main.cc:196-233): on success the written bytes stand at
`dst` and, with `removeWhenDone` (move semantics), `src` is removed; on
failure the partially written `dst` is removed.  Both loop exits close the
two open descriptors. -/
def streamCopyFS (fs1 : FS) (src dst : String) (dmode ddev : Nat)
    (removeWhenDone up : Bool) (inputSize : Nat)
    (reads : List RRes) (ws : List (Option Nat)) : Option OpOut :=
  match copyLoop up inputSize (inputSize / 100) reads ws 0 0 with
  | none => none
  | some out =>
    let fs2 := fsSet fs1 dst ⟨out.written, dmode, ddev⟩
    if out.success then
      some ⟨if removeWhenDone then fsRemove fs2 src else fs2, out.events, 2, 2⟩
    else
      some ⟨fsRemove fs2 dst, out.events, 2, 2⟩

/-- Model of the `Copy` entry point (src/main.cc:236-264): open the source,
stat it, open the destination with the source's mode, then run the copy loop;
every failure before that removes the destination and reports the error
(`copyByPathError`, src/main.cc:260-263). -/
def copyOp (fs : FS) (src dst : String) (up : Bool) (newDev : Nat)
    (cf : CopyFaults) (reads : List RRes) (ws : List (Option Nat)) :
    Option OpOut :=
  match fsLookup fs src with
  | none => some ⟨fsRemove fs dst, [Ev.error], 0, 0⟩
  | some fsrc =>
    if cf.openSrcFail then some ⟨fsRemove fs dst, [Ev.error], 0, 0⟩
    else if cf.statSrcFail then some ⟨fsRemove fs dst, [Ev.error], 1, 1⟩
    else if cf.openDstFail then some ⟨fsRemove fs dst, [Ev.error], 1, 1⟩
    else
      let dmode := dstOpenMode fs dst fsrc.mode
      let ddev := dstOpenDev fs dst newDev
      let fs1 := fsSet fs dst ⟨[], dmode, ddev⟩
      streamCopyFS fs1 src dst dmode ddev false up fsrc.content.length reads ws

/-- Model of the `Move` entry point (src/main.cc:266-322): open and stat both
files; on equal device ids close both, remove the destination, rename, emit
one `(size, size)` progress update and complete (the `rename` return value is
not inspected, so an injected rename failure leaves the filesystem unchanged
but still completes); on distinct devices run the copy loop with
delete-source-on-success. -/
def moveOp (fs : FS) (src dst : String) (up : Bool) (newDev : Nat)
    (mf : MoveFaults) (reads : List RRes) (ws : List (Option Nat)) :
    Option OpOut :=
  match fsLookup fs src with
  | none => some ⟨fsRemove fs dst, [Ev.error], 0, 0⟩
  | some fsrc =>
    if mf.openSrcFail then some ⟨fsRemove fs dst, [Ev.error], 0, 0⟩
    else if mf.statSrcFail then some ⟨fsRemove fs dst, [Ev.error], 1, 1⟩
    else if mf.openDstFail then some ⟨fsRemove fs dst, [Ev.error], 1, 1⟩
    else
      let dmode := dstOpenMode fs dst fsrc.mode
      let ddev := dstOpenDev fs dst newDev
      let fs1 := fsSet fs dst ⟨[], dmode, ddev⟩
      if mf.statDstFail then some ⟨fsRemove fs1 dst, [Ev.error], 2, 2⟩
      else
        let inputSize := fsrc.content.length
        if fsrc.dev = ddev then
          let fs2 := fsRemove fs1 dst
          let fs3 := if mf.renameFail then fs2 else fsRename fs2 src dst
          some ⟨fs3, sendProgress up inputSize inputSize ++ [Ev.complete], 2, 2⟩
        else
          streamCopyFS fs1 src dst dmode ddev true up inputSize reads ws

/-- Number of completion-sink deliveries (success or error) in an event
list. -/
def completions (evs : List Ev) : Nat :=
  evs.countP fun e =>
    match e with
    | Ev.progress _ _ => false
    | Ev.complete => true
    | Ev.error => true

/-- The `completed` components of the progress updates, in delivery order. -/
def progressCompleteds (evs : List Ev) : List Nat :=
  evs.filterMap fun e =>
    match e with
    | Ev.progress c _ => some c
    | _ => none

/-- The `total` components of the progress updates, in delivery order. -/
def progressTotals (evs : List Ev) : List Nat :=
  evs.filterMap fun e =>
    match e with
    | Ev.progress _ t => some t
    | _ => none

/-- The read sequences a regular file with the given content can produce:
each successful `read` delivers a nonempty chunk of at most `BUFFER_SIZE`
bytes, `read` returns 0 exactly when the content is exhausted, and an error
return may interrupt at any point. -/
inductive ValidReads : List Nat → List RRes → Prop
  | eof (rest : List RRes) : ValidReads [] (RRes.bytes [] :: rest)
  | err (c : List Nat) (rest : List RRes) : ValidReads c (RRes.err :: rest)
  | chunk (c1 c2 : List Nat) (rs : List RRes) (h1 : c1 ≠ [])
      (h2 : c1.length ≤ BUFFER_SIZE) (h : ValidReads c2 rs) :
      ValidReads (c1 ++ c2) (RRes.bytes c1 :: rs)

/-! ### Filesystem lemmas -/

theorem fsLookup_fsRemove_self (fs : FS) (p : String) :
    fsLookup (fsRemove fs p) p = none := by
  induction fs with
  | nil => rfl
  | cons hd tl ih =>
    obtain ⟨q, f⟩ := hd
    by_cases h : q = p <;> simp [fsRemove, fsLookup, h, ih]

theorem fsLookup_fsRemove_ne (fs : FS) (p q : String) (h : q ≠ p) :
    fsLookup (fsRemove fs p) q = fsLookup fs q := by
  induction fs with
  | nil => rfl
  | cons hd tl ih =>
    obtain ⟨r, f⟩ := hd
    by_cases hr : r = p
    · have hrq : r ≠ q := fun hq => h (hq.symm.trans hr)
      rw [fsRemove, if_pos hr, ih, fsLookup, if_neg hrq]
    · rw [fsRemove, if_neg hr, fsLookup, fsLookup]
      by_cases hq : r = q
      · rw [if_pos hq, if_pos hq]
      · rw [if_neg hq, if_neg hq, ih]

theorem fsLookup_fsSet_self (fs : FS) (p : String) (f : File) :
    fsLookup (fsSet fs p f) p = some f := by
  simp [fsSet, fsLookup]

theorem fsLookup_fsSet_ne (fs : FS) (p q : String) (f : File) (h : q ≠ p) :
    fsLookup (fsSet fs p f) q = fsLookup fs q := by
  rw [fsSet, fsLookup, if_neg (fun hp : p = q => h hp.symm)]
  exact fsLookup_fsRemove_ne fs p q h

theorem fsRemove_fsRemove (fs : FS) (p : String) :
    fsRemove (fsRemove fs p) p = fsRemove fs p := by
  induction fs with
  | nil => rfl
  | cons hd tl ih =>
    obtain ⟨q, f⟩ := hd
    by_cases h : q = p <;> simp [fsRemove, h, ih]

theorem fsRemove_fsSet_self (fs : FS) (p : String) (f : File) :
    fsRemove (fsSet fs p f) p = fsRemove fs p := by
  simp [fsSet, fsRemove, fsRemove_fsRemove]

theorem fsSet_fsSet (fs : FS) (p : String) (f g : File) :
    fsSet (fsSet fs p f) p g = fsSet fs p g := by
  simp [fsSet, fsRemove, fsRemove_fsRemove]

/-! ### doWrite lemmas -/

/-- When `doWrite` reports success, the whole chunk it was handed has been
written, whatever the per-call transfer counts were. -/
theorem doWrite_true_written (o : List (Option Nat)) :
    ∀ (data w : List Nat) (rest : List (Option Nat)),
      doWrite o data = some (true, w, rest) → w = data := by
  induction o with
  | nil => intro data w rest h; exact absurd h (by simp [doWrite])
  | cons hd tl ih =>
    intro data w rest h
    match hd with
    | none => simp [doWrite] at h
    | some k =>
      rw [doWrite] at h
      by_cases hk : k < data.length
      · rw [if_pos hk] at h
        cases hrec : doWrite tl (List.drop k data) with
        | none => rw [hrec] at h; exact absurd h (by simp)
        | some r =>
          obtain ⟨ok, w2, rest2⟩ := r
          rw [hrec] at h
          simp only [Option.some.injEq, Prod.mk.injEq] at h
          obtain ⟨hok, hw, -⟩ := h
          subst hok
          rw [← hw, ih _ _ _ hrec, List.take_append_drop]
      · rw [if_neg hk] at h
        simp only [Option.some.injEq, Prod.mk.injEq] at h
        exact h.2.1.symm

/-- A write primitive that keeps reporting zero bytes transferred keeps
`doWrite` retrying forever: no number of underlying write calls makes it
return. -/
theorem doWrite_zero_forever (data : List Nat) (h : data ≠ []) :
    ∀ n : Nat, doWrite (List.replicate n (some 0)) data = none := by
  intro n
  induction n with
  | zero => rfl
  | succ m ih =>
    have hlen : 0 < data.length := List.length_pos.mpr h
    rw [List.replicate_succ, doWrite, if_pos hlen, List.drop_zero, ih]

/-- Enough positive-progress write calls always let `doWrite` return: with
every reported transfer at least one byte, `data.length + 1` calls suffice. -/
theorem doWrite_pos_total (o : List (Option Nat)) :
    ∀ data : List Nat, (∀ k, some k ∈ o → 1 ≤ k) →
      data.length + 1 ≤ o.length → (doWrite o data).isSome = true := by
  induction o with
  | nil => intro data _ hlen; exact absurd hlen (by simp)
  | cons hd tl ih =>
    intro data hpos hlen
    match hd with
    | none => simp [doWrite]
    | some k =>
      have hk : 1 ≤ k := hpos k (List.mem_cons_self _ _)
      rw [doWrite]
      by_cases hlt : k < data.length
      · rw [if_pos hlt]
        have hrec : (doWrite tl (List.drop k data)).isSome = true := by
          apply ih
          · intro k2 hk2; exact hpos k2 (List.mem_cons_of_mem _ hk2)
          · simp only [List.length_drop]
            simp only [List.length_cons] at hlen
            omega
        cases hdw : doWrite tl (List.drop k data) with
        | none => rw [hdw] at hrec; exact absurd hrec (by simp)
        | some r => obtain ⟨ok, w, rest⟩ := r; simp
      · rw [if_neg hlt]; simp

/-- C9's claimed property, as stated: for every write-primitive behavior that
at each call either fails or transfers between 0 and the still-requested
number of bytes, `doWrite` returns after finitely many calls, and a
successful return means the whole chunk was written. -/
def doWriteAlwaysTerminates : Prop :=
  ∀ (b : Nat → Option Nat) (data : List Nat),
    (∀ i k, b i = some k → k ≤ remSeq b data.length i) →
    ∃ (n : Nat) (r : Bool) (w : List Nat) (rest : List (Option Nat)),
      doWrite (doWriteTrace b n) data = some (r, w, rest) ∧
      (r = true → w = data)

/-! ### Event-list helper lemmas -/

theorem completions_append (a b : List Ev) :
    completions (a ++ b) = completions a + completions b := by
  simp [completions, List.countP_append]

theorem completions_sendProgress (up : Bool) (c t : Nat) :
    completions (sendProgress up c t) = 0 := by
  cases up <;> rfl

theorem progressCompleteds_append (a b : List Ev) :
    progressCompleteds (a ++ b) = progressCompleteds a ++ progressCompleteds b := by
  simp [progressCompleteds, List.filterMap_append]

theorem progressTotals_append (a b : List Ev) :
    progressTotals (a ++ b) = progressTotals a ++ progressTotals b := by
  simp [progressTotals, List.filterMap_append]

theorem progressCompleteds_sendProgress (up : Bool) (c t : Nat) :
    progressCompleteds (sendProgress up c t) = if up then [c] else [] := by
  cases up <;> rfl

theorem progressTotals_sendProgress (up : Bool) (c t : Nat) :
    progressTotals (sendProgress up c t) = if up then [t] else [] := by
  cases up <;> rfl

theorem complete_not_mem_sendProgress (up : Bool) (c t : Nat) :
    Ev.complete ∉ sendProgress up c t := by
  cases up <;> simp [sendProgress]

theorem error_not_mem_sendProgress (up : Bool) (c t : Nat) :
    Ev.error ∉ sendProgress up c t := by
  cases up <;> simp [sendProgress]

/-! ### Structural facts about the copy loop -/

/-- Every completed copy-loop run delivers the completion sink exactly once;
the run left by `SendComplete` exactly when a success event (and no error
event) is in the trace; every progress update carries `inputSize` as its
total. -/
theorem copyLoop_basic (up : Bool) (n bpu : Nat) :
    ∀ (reads : List RRes) (ws : List (Option Nat)) (p slu : Nat) (out : LoopOut),
      copyLoop up n bpu reads ws p slu = some out →
      completions out.events = 1 ∧
      (out.success = true ↔ Ev.complete ∈ out.events) ∧
      (out.success = false ↔ Ev.error ∈ out.events) ∧
      (∀ t, t ∈ progressTotals out.events → t = n) := by
  intro reads
  induction reads with
  | nil => intro ws p slu out h; exact absurd h (by simp [copyLoop])
  | cons hd tl ih =>
    intro ws p slu out h
    match hd with
    | RRes.err =>
      rw [copyLoop] at h
      injection h with h
      subst h
      refine ⟨rfl, by simp [completions], by simp, ?_⟩
      intro t ht
      simp [progressTotals] at ht
    | RRes.bytes [] =>
      rw [copyLoop] at h
      injection h with h
      subst h
      refine ⟨?_, by simp, ?_, ?_⟩
      · rw [completions_append, completions_sendProgress]
        rfl
      · simp only [List.mem_append]
        constructor
        · intro h2; exact absurd h2 (by simp)
        · rintro (h2 | h2)
          · exact absurd h2 (error_not_mem_sendProgress up n n)
          · simp at h2
      · intro t ht
        rw [progressTotals_append, progressTotals_sendProgress] at ht
        cases up <;> simp_all [progressTotals]
    | RRes.bytes (b :: bs) =>
      simp only [copyLoop] at h
      cases hdw : doWrite ws (b :: bs) with
      | none => rw [hdw] at h; exact absurd h (by simp)
      | some res =>
        obtain ⟨ok, w, ws2⟩ := res
        rw [hdw] at h
        cases ok with
        | false =>
          simp only at h
          injection h with h
          subst h
          refine ⟨rfl, by simp [completions], by simp, ?_⟩
          intro t ht
          simp [progressTotals] at ht
        | true =>
          simp only at h
          by_cases hslu : slu + (b :: bs).length > bpu
          · rw [if_pos hslu] at h
            cases hrec : copyLoop up n bpu tl ws2 (p + (b :: bs).length) 0 with
            | none => rw [hrec] at h; exact absurd h (by simp)
            | some out2 =>
              rw [hrec] at h
              injection h with h
              subst h
              obtain ⟨ihc, ihs, ihe, iht⟩ := ih ws2 (p + (b :: bs).length) 0 out2 hrec
              refine ⟨?_, ?_, ?_, ?_⟩
              · simpa [completions_append, completions_sendProgress] using ihc
              · simp only [List.mem_append]
                constructor
                · intro hs
                  exact Or.inr (ihs.mp hs)
                · rintro (hs | hs)
                  · exact absurd hs (complete_not_mem_sendProgress _ _ _)
                  · exact ihs.mpr hs
              · simp only [List.mem_append]
                constructor
                · intro hs
                  exact Or.inr (ihe.mp hs)
                · rintro (hs | hs)
                  · exact absurd hs (error_not_mem_sendProgress _ _ _)
                  · exact ihe.mpr hs
              · intro t ht
                rw [progressTotals_append, progressTotals_sendProgress] at ht
                rcases List.mem_append.mp ht with ht2 | ht2
                · cases up <;> simp_all
                · exact iht t ht2
          · rw [if_neg hslu] at h
            cases hrec : copyLoop up n bpu tl ws2 (p + (b :: bs).length)
                (slu + (b :: bs).length) with
            | none => rw [hrec] at h; exact absurd h (by simp)
            | some out2 =>
              rw [hrec] at h
              injection h with h
              subst h
              obtain ⟨ihc, ihs, ihe, iht⟩ :=
                ih ws2 (p + (b :: bs).length) (slu + (b :: bs).length) out2 hrec
              exact ⟨ihc, ihs, ihe, iht⟩

/-- Over a valid read sequence for the remaining `rem` bytes, a completed
copy-loop run writes exactly those bytes when it succeeds; its progress
updates are monotonically non-decreasing, bounded by `p` below and the input
size above, and on success with a progress sink the last one reports the
input size. -/
theorem copyLoop_valid (up : Bool) (n bpu : Nat) :
    ∀ (rem : List Nat) (reads : List RRes), ValidReads rem reads →
    ∀ (ws : List (Option Nat)) (p slu : Nat) (out : LoopOut),
      copyLoop up n bpu reads ws p slu = some out →
      p + rem.length ≤ n →
      (out.success = true → out.written = rem) ∧
      List.Sorted (· ≤ ·) (progressCompleteds out.events) ∧
      (∀ c, c ∈ progressCompleteds out.events → p ≤ c ∧ c ≤ n) ∧
      (out.success = true → up = true →
        (progressCompleteds out.events).getLast? = some n) := by
  intro rem reads hv
  induction hv with
  | eof rest =>
    intro ws p slu out h hp
    rw [copyLoop] at h
    injection h with h
    subst h
    simp only [List.length_nil, Nat.add_zero] at hp
    refine ⟨fun _ => rfl, ?_, ?_, ?_⟩
    · rw [progressCompleteds_append, progressCompleteds_sendProgress]
      cases up <;> simp [progressCompleteds]
    · intro c hc
      rw [progressCompleteds_append, progressCompleteds_sendProgress] at hc
      cases up <;> simp_all [progressCompleteds]
    · intro _ hup
      subst hup
      rw [progressCompleteds_append, progressCompleteds_sendProgress]
      simp [progressCompleteds]
  | err c rest =>
    intro ws p slu out h hp
    rw [copyLoop] at h
    injection h with h
    subst h
    refine ⟨fun hs => absurd hs (by simp), ?_, ?_, fun hs => absurd hs (by simp)⟩
    · simp [progressCompleteds]
    · intro c2 hc2
      simp [progressCompleteds] at hc2
  | chunk c1 c2 rs h1 h2 hv ih =>
    intro ws p slu out h hp
    match c1, h1 with
    | b :: bs, _ =>
      simp only [copyLoop] at h
      cases hdw : doWrite ws (b :: bs) with
      | none => rw [hdw] at h; exact absurd h (by simp)
      | some res =>
        obtain ⟨ok, w, ws2⟩ := res
        rw [hdw] at h
        cases ok with
        | false =>
          simp only at h
          injection h with h
          subst h
          refine ⟨fun hs => absurd hs (by simp), by simp [progressCompleteds],
            ?_, fun hs => absurd hs (by simp)⟩
          intro c2 hc2
          simp [progressCompleteds] at hc2
        | true =>
          have hw : w = b :: bs := doWrite_true_written ws _ _ _ hdw
          have hp2 : p + (b :: bs).length + c2.length ≤ n := by
            rw [List.length_append] at hp
            omega
          simp only at h
          by_cases hslu : slu + (b :: bs).length > bpu
          · rw [if_pos hslu] at h
            cases hrec : copyLoop up n bpu rs ws2 (p + (b :: bs).length) 0 with
            | none => rw [hrec] at h; exact absurd h (by simp)
            | some out2 =>
              rw [hrec] at h
              injection h with h
              subst h
              obtain ⟨iw, isort, ibnd, ilast⟩ := ih ws2 (p + (b :: bs).length) 0 out2 hrec hp2
              refine ⟨?_, ?_, ?_, ?_⟩
              · intro hs
                simp only at hs
                rw [hw, iw hs]
              · rw [progressCompleteds_append, progressCompleteds_sendProgress]
                cases up with
                | false => simpa using isort
                | true =>
                  simp only [if_pos rfl, List.singleton_append]
                  exact List.sorted_cons.mpr ⟨fun x hx => (ibnd x hx).1, isort⟩
              · intro c hc
                rw [progressCompleteds_append, progressCompleteds_sendProgress] at hc
                rcases List.mem_append.mp hc with hc2 | hc2
                · cases up <;> simp_all
                  omega
                · obtain ⟨hcl, hcu⟩ := ibnd c hc2
                  exact ⟨le_trans (Nat.le_add_right _ _) hcl, hcu⟩
              · intro hs hup
                have hlast := ilast hs hup
                rw [progressCompleteds_append]
                cases hcs : progressCompleteds out2.events with
                | nil => rw [hcs] at hlast; exact absurd hlast (by simp)
                | cons x xs =>
                  rw [← hcs, List.getLast?_append_of_ne_nil _ (by rw [hcs]; simp)]
                  exact hlast
          · rw [if_neg hslu] at h
            cases hrec : copyLoop up n bpu rs ws2 (p + (b :: bs).length)
                (slu + (b :: bs).length) with
            | none => rw [hrec] at h; exact absurd h (by simp)
            | some out2 =>
              rw [hrec] at h
              injection h with h
              subst h
              obtain ⟨iw, isort, ibnd, ilast⟩ :=
                ih ws2 (p + (b :: bs).length) (slu + (b :: bs).length) out2 hrec hp2
              refine ⟨?_, isort, ?_, ilast⟩
              · intro hs
                simp only at hs
                rw [hw, iw hs]
              · intro c hc
                obtain ⟨hcl, hcu⟩ := ibnd c hc
                exact ⟨le_trans (Nat.le_add_right _ _) hcl, hcu⟩

/-! ### Characterizations of the entry points -/

/-- Every completed `Copy` run either took an error path (destination removed,
one error delivery) or ran the copy loop after opening both files; in the
latter case the destination receives the written bytes on success (with the
mode and device fixed at open time) and is removed on failure. -/
theorem copyOp_characterize (fs : FS) (src dst : String) (up : Bool) (newDev : Nat)
    (cf : CopyFaults) (reads : List RRes) (ws : List (Option Nat)) (out : OpOut)
    (h : copyOp fs src dst up newDev cf reads ws = some out) :
    (out.events = [Ev.error] ∧ out.fs = fsRemove fs dst) ∨
    (∃ fsrc lout,
      fsLookup fs src = some fsrc ∧
      copyLoop up fsrc.content.length (fsrc.content.length / 100) reads ws 0 0 =
        some lout ∧
      out.events = lout.events ∧ out.opened = 2 ∧ out.closed = 2 ∧
      (lout.success = true →
        out.fs = fsSet fs dst
          ⟨lout.written, dstOpenMode fs dst fsrc.mode, dstOpenDev fs dst newDev⟩) ∧
      (lout.success = false → out.fs = fsRemove fs dst)) := by
  rw [copyOp] at h
  cases hsrc : fsLookup fs src with
  | none =>
    rw [hsrc] at h
    injection h with h
    subst h
    exact Or.inl ⟨rfl, rfl⟩
  | some fsrc =>
    rw [hsrc] at h
    simp only at h
    by_cases h1 : cf.openSrcFail = true
    · rw [if_pos h1] at h
      injection h with h
      subst h
      exact Or.inl ⟨rfl, rfl⟩
    · rw [if_neg h1] at h
      by_cases h2 : cf.statSrcFail = true
      · rw [if_pos h2] at h
        injection h with h
        subst h
        exact Or.inl ⟨rfl, rfl⟩
      · rw [if_neg h2] at h
        by_cases h3 : cf.openDstFail = true
        · rw [if_pos h3] at h
          injection h with h
          subst h
          exact Or.inl ⟨rfl, rfl⟩
        · rw [if_neg h3] at h
          simp only [streamCopyFS] at h
          cases hloop : copyLoop up fsrc.content.length
              (fsrc.content.length / 100) reads ws 0 0 with
          | none => rw [hloop] at h; exact absurd h (by simp)
          | some lout =>
            rw [hloop] at h
            simp only at h
            by_cases hs : lout.success = true
            · rw [if_pos hs] at h
              injection h with h
              subst h
              refine Or.inr ⟨fsrc, lout, rfl, hloop, rfl, rfl, rfl, fun _ => ?_,
                fun hf => absurd hs (by simp [hf])⟩
              simp [fsSet_fsSet]
            · rw [if_neg hs] at h
              injection h with h
              subst h
              refine Or.inr ⟨fsrc, lout, rfl, hloop, rfl, rfl, rfl,
                fun ht => absurd ht hs, fun _ => ?_⟩
              simp only
              rw [fsRemove_fsSet_self, fsRemove_fsSet_self]

/-- Every completed `Move` run either took an error path (destination removed,
one error delivery), or took the same-device branch (remove + rename, one
progress update, success, rename failures invisible), or ran the copy loop
cross-device with delete-source-on-success. -/
theorem moveOp_characterize (fs : FS) (src dst : String) (up : Bool) (newDev : Nat)
    (mf : MoveFaults) (reads : List RRes) (ws : List (Option Nat)) (out : OpOut)
    (h : moveOp fs src dst up newDev mf reads ws = some out) :
    (out.events = [Ev.error] ∧ out.fs = fsRemove fs dst) ∨
    (∃ fsrc,
      fsLookup fs src = some fsrc ∧ fsrc.dev = dstOpenDev fs dst newDev ∧
      out.events = sendProgress up fsrc.content.length fsrc.content.length ++
        [Ev.complete] ∧
      out.opened = 2 ∧ out.closed = 2 ∧
      ((mf.renameFail = true ∧ out.fs = fsRemove fs dst) ∨
       (mf.renameFail = false ∧ out.fs = fsRename (fsRemove fs dst) src dst))) ∨
    (∃ fsrc lout,
      fsLookup fs src = some fsrc ∧ ¬fsrc.dev = dstOpenDev fs dst newDev ∧
      copyLoop up fsrc.content.length (fsrc.content.length / 100) reads ws 0 0 =
        some lout ∧
      out.events = lout.events ∧ out.opened = 2 ∧ out.closed = 2 ∧
      (lout.success = true →
        out.fs = fsRemove (fsSet fs dst
          ⟨lout.written, dstOpenMode fs dst fsrc.mode, dstOpenDev fs dst newDev⟩) src) ∧
      (lout.success = false → out.fs = fsRemove fs dst)) := by
  rw [moveOp] at h
  cases hsrc : fsLookup fs src with
  | none =>
    rw [hsrc] at h
    injection h with h
    subst h
    exact Or.inl ⟨rfl, rfl⟩
  | some fsrc =>
    rw [hsrc] at h
    simp only at h
    by_cases h1 : mf.openSrcFail = true
    · rw [if_pos h1] at h
      injection h with h
      subst h
      exact Or.inl ⟨rfl, rfl⟩
    · rw [if_neg h1] at h
      by_cases h2 : mf.statSrcFail = true
      · rw [if_pos h2] at h
        injection h with h
        subst h
        exact Or.inl ⟨rfl, rfl⟩
      · rw [if_neg h2] at h
        by_cases h3 : mf.openDstFail = true
        · rw [if_pos h3] at h
          injection h with h
          subst h
          exact Or.inl ⟨rfl, rfl⟩
        · rw [if_neg h3] at h
          by_cases h4 : mf.statDstFail = true
          · rw [if_pos h4] at h
            injection h with h
            subst h
            refine Or.inl ⟨rfl, ?_⟩
            simp only
            rw [fsRemove_fsSet_self]
          · rw [if_neg h4] at h
            by_cases hdev : fsrc.dev = dstOpenDev fs dst newDev
            · rw [if_pos hdev] at h
              by_cases h5 : mf.renameFail = true
              · rw [if_pos h5] at h
                injection h with h
                subst h
                refine Or.inr (Or.inl ⟨fsrc, rfl, hdev, rfl, rfl, rfl, Or.inl ⟨h5, ?_⟩⟩)
                simp only
                rw [fsRemove_fsSet_self]
              · rw [if_neg h5] at h
                injection h with h
                subst h
                refine Or.inr (Or.inl ⟨fsrc, rfl, hdev, rfl, rfl, rfl,
                  Or.inr ⟨Bool.not_eq_true _ ▸ h5, ?_⟩⟩)
                simp only
                rw [fsRemove_fsSet_self]
            · rw [if_neg hdev] at h
              simp only [streamCopyFS] at h
              cases hloop : copyLoop up fsrc.content.length
                  (fsrc.content.length / 100) reads ws 0 0 with
              | none => rw [hloop] at h; exact absurd h (by simp)
              | some lout =>
                rw [hloop] at h
                simp only at h
                by_cases hs : lout.success = true
                · rw [if_pos hs] at h
                  injection h with h
                  subst h
                  refine Or.inr (Or.inr ⟨fsrc, lout, rfl, hdev, hloop, rfl, rfl, rfl,
                    fun _ => ?_, fun hf => absurd hs (by simp [hf])⟩)
                  simp [fsSet_fsSet]
                · rw [if_neg hs] at h
                  injection h with h
                  subst h
                  refine Or.inr (Or.inr ⟨fsrc, lout, rfl, hdev, hloop, rfl, rfl, rfl,
                    fun ht => absurd ht hs, fun _ => ?_⟩)
                  simp only
                  rw [fsRemove_fsSet_self, fsRemove_fsSet_self]

/-! ### Claim C9 -/

/-- C9, counterexample: the claim as stated is false on the code.  The write
behavior that keeps reporting 0 bytes transferred obeys the claim's
constraint (0 is non-negative and never exceeds the requested length), yet
`doWrite` retries the full chunk forever: no number of underlying write calls
makes it return. -/
theorem doWrite_zero_write_not_terminating : ¬doWriteAlwaysTerminates := by
  intro hclaim
  obtain ⟨n, r, w, rest, heq, -⟩ := hclaim (fun _ => some 0) [0]
    (fun i k hk => by
      have hk0 : (0 : Nat) = k := Option.some.inj hk
      rw [← hk0]
      exact Nat.zero_le _)
  have htr : doWriteTrace (fun _ => some 0) n = List.replicate n (some 0) := by
    rw [doWriteTrace, List.map_const', List.length_range]
  rw [htr, doWrite_zero_forever [0] (by simp) n] at heq
  exact absurd heq (by simp)

/-- C9, amended: `doWrite` terminates for every behavior of the underlying
write primitive that on each call either reports an error or transfers at
least one byte — `data.length + 1` calls always suffice for it to return —
and on a non-error return the entire chunk has been written.  (The claim's
allowance of zero-byte transfers is what fails; see the counterexample.) -/
theorem doWrite_terminates_of_positive_writes (b : Nat → Option Nat)
    (data : List Nat) (hpos : ∀ i k, b i = some k → 1 ≤ k) :
    ∃ (r : Bool) (w : List Nat) (rest : List (Option Nat)),
      doWrite (doWriteTrace b (data.length + 1)) data = some (r, w, rest) ∧
      (r = true → w = data) := by
  have hs : (doWrite (doWriteTrace b (data.length + 1)) data).isSome = true := by
    apply doWrite_pos_total
    · intro k hk
      rw [doWriteTrace] at hk
      obtain ⟨i, -, hi⟩ := List.mem_map.mp hk
      exact hpos i k hi
    · rw [doWriteTrace, List.length_map, List.length_range]
  cases hdw : doWrite (doWriteTrace b (data.length + 1)) data with
  | none => rw [hdw] at hs; exact absurd hs (by simp)
  | some res =>
    obtain ⟨r, w, rest⟩ := res
    refine ⟨r, w, rest, rfl, fun hr => ?_⟩
    subst hr
    exact doWrite_true_written _ _ _ _ hdw

/-- Witness for the amended C9 at a concrete input: a primitive that always
transfers one byte lets `doWrite` finish a 2-byte chunk. -/
theorem doWrite_terminates_of_positive_writes_witness :
    ∃ (r : Bool) (w : List Nat) (rest : List (Option Nat)),
      doWrite (doWriteTrace (fun _ => some 1) (List.length [5, 6] + 1)) [5, 6] =
        some (r, w, rest) ∧
      (r = true → w = [5, 6]) :=
  doWrite_terminates_of_positive_writes (fun _ => some 1) [5, 6]
    (fun _ _ hk => le_of_eq (Option.some.inj hk))

/-! ### Claim C1 -/

/-- C1, counterexample: a copy that signals success onto a pre-existing
destination leaves the destination with its previous mode bits (511), not the
source's (420): `open(dst, O_WRONLY | O_CREAT | O_TRUNC, st.st_mode)` at
src/main.cc:251 applies the mode only when it creates the file.  The content
part of the claim does hold (the destination holds the source's byte [7]). -/
theorem copy_preexisting_destination_keeps_mode :
    (copyOp [("s", ⟨[7], 420, 0⟩), ("d", ⟨[9, 9], 511, 0⟩)] "s" "d" false 0
        ⟨false, false, false⟩ [RRes.bytes [7], RRes.bytes []] [some 1]).map
      (fun o => (decide (Ev.complete ∈ o.events),
                 (fsLookup o.fs "d").map File.content,
                 (fsLookup o.fs "d").map File.mode)) =
      some (true, some [7], some 511) ∧
    (fsLookup [("s", (⟨[7], 420, 0⟩ : File)), ("d", ⟨[9, 9], 511, 0⟩)] "s").map
      File.mode = some 420 ∧
    (511 : Nat) ≠ 420 := by
  refine ⟨by decide, by decide, by decide⟩

/-- C1, amended: for every copy operation that signals success the
destination's content is byte-for-byte equal to the source's content; the
destination's mode bits equal the source's mode bits captured at open time
whenever the operation created the destination (no file previously existed at
the destination path) — a pre-existing destination keeps its prior mode. -/
theorem copy_success_content_and_creation_mode
    (fs : FS) (src dst : String) (up : Bool) (newDev : Nat) (cf : CopyFaults)
    (reads : List RRes) (ws : List (Option Nat)) (out : OpOut) (fsrc : File)
    (hs : fsLookup fs src = some fsrc)
    (hv : ValidReads fsrc.content reads)
    (h : copyOp fs src dst up newDev cf reads ws = some out)
    (hc : Ev.complete ∈ out.events) :
    (fsLookup out.fs dst).map File.content = some fsrc.content ∧
    (fsLookup fs dst = none →
      (fsLookup out.fs dst).map File.mode = some fsrc.mode) := by
  rcases copyOp_characterize _ _ _ _ _ _ _ _ _ h with ⟨hev, -⟩ |
    ⟨fsrc2, lout, hs2, hloop, hev, -, -, hsf, -⟩
  · rw [hev] at hc
    simp at hc
  · rw [hs] at hs2
    injection hs2 with hs2
    subst hs2
    obtain ⟨-, hsuc, -, -⟩ := copyLoop_basic _ _ _ _ _ _ _ _ hloop
    have hsucc : lout.success = true := hsuc.mpr (hev ▸ hc)
    have hwr : lout.written = fsrc.content :=
      (copyLoop_valid _ _ _ _ _ hv _ _ _ _ hloop (by omega)).1 hsucc
    rw [hsf hsucc, fsLookup_fsSet_self]
    refine ⟨by simp [hwr], fun hnone => ?_⟩
    simp [dstOpenMode, hnone]

/-- Witness for the amended C1: a concrete successful copy creating its
destination gets the source's content and mode. -/
theorem copy_success_content_and_creation_mode_witness :
    (fsLookup [("d", (⟨[7], 420, 0⟩ : File)), ("s", ⟨[7], 420, 0⟩)] "d").map
      File.content = some [7] ∧
    (fsLookup [("s", (⟨[7], 420, 0⟩ : File))] "d" = none →
      (fsLookup [("d", (⟨[7], 420, 0⟩ : File)), ("s", ⟨[7], 420, 0⟩)] "d").map
        File.mode = some 420) :=
  copy_success_content_and_creation_mode [("s", ⟨[7], 420, 0⟩)] "s" "d" false 0
    ⟨false, false, false⟩ [RRes.bytes [7], RRes.bytes []] [some 1]
    ⟨[("d", ⟨[7], 420, 0⟩), ("s", ⟨[7], 420, 0⟩)], [Ev.complete], 2, 2⟩
    ⟨[7], 420, 0⟩ (by decide)
    (ValidReads.chunk [7] [] [RRes.bytes []] (by simp) (by decide)
      (ValidReads.eof []))
    (by decide) (by decide)

/-! ### Claim C2 -/

/-- C2, counterexample: in a four-argument call the completion outcome is not
delivered to the third argument.  `Args::Args` (src/main.cc:137-138) routes
`ResultCallback` — the sink fed by `SendComplete`/`SendError` — to `args[3]`,
the fourth argument, and `ProgressCallback` to `args[2]`, the third. -/
theorem four_arg_call_completion_not_third :
    (mkArgs [ArgKind.str, ArgKind.str, ArgKind.fn, ArgKind.fn]).map
      ArgsSel.resultIdx ≠ some 2 ∧
    (mkArgs [ArgKind.str, ArgKind.str, ArgKind.fn, ArgKind.fn]).map
      (fun s => (s.resultIdx, s.progressIdx)) = some (3, 2) := by
  exact ⟨by decide, by decide⟩

/-- C2, amended: for every validated call with four arguments the completion
outcome — `(errorText, false)` on failure, `(null, true)` on success — is
delivered to the FOURTH argument, and progress updates `(completed, total)`
are delivered to the THIRD argument, which is also marked as wanted. -/
theorem four_arg_call_routing (args : List ArgKind) (sel : ArgsSel)
    (h : mkArgs args = some sel) (h4 : 3 < args.length) :
    sel.updateProgress = true ∧ sel.resultIdx = 3 ∧ sel.progressIdx = 2 := by
  rw [mkArgs, if_neg (by omega : ¬args.length < 3)] at h
  by_cases c0 : args[0]? ≠ some ArgKind.str
  · rw [if_pos c0] at h
    exact absurd h (by simp)
  · rw [if_neg c0] at h
    by_cases c1 : args[1]? ≠ some ArgKind.str
    · rw [if_pos c1] at h
      exact absurd h (by simp)
    · rw [if_neg c1] at h
      by_cases c2 : args[2]? ≠ some ArgKind.fn
      · rw [if_pos c2] at h
        exact absurd h (by simp)
      · rw [if_neg c2] at h
        by_cases c3 : 3 < args.length ∧ args[3]? ≠ some ArgKind.fn
        · rw [if_pos c3] at h
          exact absurd h (by simp)
        · rw [if_neg c3] at h
          injection h with h
          subst h
          exact ⟨by simp [h4], by simp [if_pos h4], rfl⟩

/-- Witness for the amended C2 at a concrete four-argument call. -/
theorem four_arg_call_routing_witness :
    (⟨true, 3, 2⟩ : ArgsSel).updateProgress = true ∧
    (⟨true, 3, 2⟩ : ArgsSel).resultIdx = 3 ∧
    (⟨true, 3, 2⟩ : ArgsSel).progressIdx = 2 :=
  four_arg_call_routing [ArgKind.str, ArgKind.str, ArgKind.fn, ArgKind.fn]
    ⟨true, 3, 2⟩ (by decide) (by decide)

/-! ### Claim C3 -/

/-- C3: every completed copy or move run, whichever success or failure path
it takes (open, stat, read, write or rename outcome), delivers the completion
sink exactly once — never zero times and never more than once. -/
theorem completion_sink_exactly_once
    (fs fs2 : FS) (src dst src2 dst2 : String) (up up2 : Bool)
    (newDev newDev2 : Nat) (cf : CopyFaults) (mf : MoveFaults)
    (reads reads2 : List RRes) (ws ws2 : List (Option Nat)) :
    (∀ out, copyOp fs src dst up newDev cf reads ws = some out →
      completions out.events = 1) ∧
    (∀ out, moveOp fs2 src2 dst2 up2 newDev2 mf reads2 ws2 = some out →
      completions out.events = 1) := by
  constructor
  · intro out h
    rcases copyOp_characterize _ _ _ _ _ _ _ _ _ h with ⟨hev, -⟩ |
      ⟨fsrc, lout, -, hloop, hev, -, -, -, -⟩
    · rw [hev]
      rfl
    · obtain ⟨hc, -, -, -⟩ := copyLoop_basic _ _ _ _ _ _ _ _ hloop
      rw [hev]
      exact hc
  · intro out h
    rcases moveOp_characterize _ _ _ _ _ _ _ _ _ h with ⟨hev, -⟩ |
      ⟨fsrc, -, -, hev, -, -, -⟩ | ⟨fsrc, lout, -, -, hloop, hev, -, -, -, -⟩
    · rw [hev]
      rfl
    · rw [hev, completions_append, completions_sendProgress]
      rfl
    · obtain ⟨hc, -, -, -⟩ := copyLoop_basic _ _ _ _ _ _ _ _ hloop
      rw [hev]
      exact hc

/-- Witness for C3: a failed copy (missing source) and a successful
same-device move each deliver the completion sink exactly once. -/
theorem completion_sink_exactly_once_witness :
    completions [Ev.error] = 1 ∧
    completions [Ev.progress 1 1, Ev.complete] = 1 := by
  constructor
  · exact (completion_sink_exactly_once [] [("s", ⟨[7], 420, 5⟩)] "s" "d" "s" "d"
      false true 0 5 ⟨false, false, false⟩ ⟨false, false, false, false, false⟩
      [] [RRes.bytes [7], RRes.bytes []] [] [some 1]).1
      ⟨[], [Ev.error], 0, 0⟩ (by decide)
  · exact (completion_sink_exactly_once [] [("s", ⟨[7], 420, 5⟩)] "s" "d" "s" "d"
      false true 0 5 ⟨false, false, false⟩ ⟨false, false, false, false, false⟩
      [] [RRes.bytes [7], RRes.bytes []] [] [some 1]).2
      ⟨[("d", ⟨[7], 420, 5⟩)], [Ev.progress 1 1, Ev.complete], 2, 2⟩ (by decide)

/-! ### Claim C4 -/

/-- C4: every completed copy or move run that reports a failure — at open, at
stat, or mid-transfer on read or write — has removed the destination path
before reporting it: no partially written or truncated file remains at the
destination. -/
theorem failed_operation_removes_destination
    (fs fs2 : FS) (src dst src2 dst2 : String) (up up2 : Bool)
    (newDev newDev2 : Nat) (cf : CopyFaults) (mf : MoveFaults)
    (reads reads2 : List RRes) (ws ws2 : List (Option Nat)) :
    (∀ out, copyOp fs src dst up newDev cf reads ws = some out →
      Ev.error ∈ out.events → fsLookup out.fs dst = none) ∧
    (∀ out, moveOp fs2 src2 dst2 up2 newDev2 mf reads2 ws2 = some out →
      Ev.error ∈ out.events → fsLookup out.fs dst2 = none) := by
  constructor
  · intro out h herr
    rcases copyOp_characterize _ _ _ _ _ _ _ _ _ h with ⟨-, hfs⟩ |
      ⟨fsrc, lout, -, hloop, hev, -, -, -, hff⟩
    · rw [hfs]
      exact fsLookup_fsRemove_self _ _
    · obtain ⟨-, -, herr2, -⟩ := copyLoop_basic _ _ _ _ _ _ _ _ hloop
      rw [hff (herr2.mpr (hev ▸ herr))]
      exact fsLookup_fsRemove_self _ _
  · intro out h herr
    rcases moveOp_characterize _ _ _ _ _ _ _ _ _ h with ⟨-, hfs⟩ |
      ⟨fsrc, -, -, hev, -, -, -⟩ | ⟨fsrc, lout, -, -, hloop, hev, -, -, -, hff⟩
    · rw [hfs]
      exact fsLookup_fsRemove_self _ _
    · rw [hev] at herr
      rcases List.mem_append.mp herr with h2 | h2
      · exact absurd h2 (error_not_mem_sendProgress _ _ _)
      · simp at h2
    · obtain ⟨-, -, herr2, -⟩ := copyLoop_basic _ _ _ _ _ _ _ _ hloop
      rw [hff (herr2.mpr (hev ▸ herr))]
      exact fsLookup_fsRemove_self _ _

/-- Witness for C4: after a copy whose source is missing and a cross-device
move failing on its first write, nothing is left at the destination path. -/
theorem failed_operation_removes_destination_witness :
    fsLookup ([] : FS) "d" = none ∧
    fsLookup [("s", (⟨[1, 2], 420, 7⟩ : File))] "d" = none := by
  constructor
  · exact (failed_operation_removes_destination [] [("s", ⟨[1, 2], 420, 7⟩)]
      "s" "d" "s" "d" false true 0 8 ⟨false, false, false⟩
      ⟨false, false, false, false, false⟩ [] [RRes.bytes [1, 2]] [] [none]).1
      ⟨[], [Ev.error], 0, 0⟩ (by decide) (by decide)
  · exact (failed_operation_removes_destination [] [("s", ⟨[1, 2], 420, 7⟩)]
      "s" "d" "s" "d" false true 0 8 ⟨false, false, false⟩
      ⟨false, false, false, false, false⟩ [] [RRes.bytes [1, 2]] [] [none]).2
      ⟨[("s", ⟨[1, 2], 420, 7⟩)], [Ev.error], 2, 2⟩ (by decide) (by decide)

/-! ### Claim C5 -/

/-- C5: the code contradicts the claim.  A same-device move whose `rename`
fails still delivers `(null, true)` — one progress update and the success
completion, no error — because the `rename` return value at src/main.cc:305
is never inspected.  Here the failed rename leaves the source still at "s"
and nothing at "d" (the destination was already removed), yet the trace ends
in `Ev.complete`. -/
theorem move_rename_failure_reports_success :
    (moveOp [("s", ⟨[7], 420, 5⟩)] "s" "d" true 5
        ⟨false, false, false, false, true⟩ [] []).map
      (fun o => (o.events, fsLookup o.fs "s", fsLookup o.fs "d")) =
      some ([Ev.progress 1 1, Ev.complete], some ⟨[7], 420, 5⟩, none) := by
  decide

/-! ### Claim C6 -/

/-- C6: with the progress sink supplied, every completed copy or move run
delivers progress updates whose `completed` values are monotonically
non-decreasing, every update's `total` is the source size captured at open
time, and on success the final update reports
`completed = total = source size`. -/
theorem progress_monotone_and_final_total
    (fs fs2 : FS) (src dst src2 dst2 : String) (newDev newDev2 : Nat)
    (cf : CopyFaults) (mf : MoveFaults) (reads reads2 : List RRes)
    (ws ws2 : List (Option Nat)) (fsrc fsrc2 : File)
    (hs : fsLookup fs src = some fsrc) (hv : ValidReads fsrc.content reads)
    (hs2 : fsLookup fs2 src2 = some fsrc2)
    (hv2 : ValidReads fsrc2.content reads2) :
    (∀ out, copyOp fs src dst true newDev cf reads ws = some out →
      List.Sorted (· ≤ ·) (progressCompleteds out.events) ∧
      (∀ t, t ∈ progressTotals out.events → t = fsrc.content.length) ∧
      (Ev.complete ∈ out.events →
        (progressCompleteds out.events).getLast? = some fsrc.content.length)) ∧
    (∀ out, moveOp fs2 src2 dst2 true newDev2 mf reads2 ws2 = some out →
      List.Sorted (· ≤ ·) (progressCompleteds out.events) ∧
      (∀ t, t ∈ progressTotals out.events → t = fsrc2.content.length) ∧
      (Ev.complete ∈ out.events →
        (progressCompleteds out.events).getLast? = some fsrc2.content.length)) := by
  constructor
  · intro out h
    rcases copyOp_characterize _ _ _ _ _ _ _ _ _ h with ⟨hev, -⟩ |
      ⟨fsrc3, lout, hs3, hloop, hev, -, -, -, -⟩
    · rw [hev]
      refine ⟨by simp [progressCompleteds], ?_, ?_⟩
      · intro t ht
        simp [progressTotals] at ht
      · intro hc
        simp at hc
    · rw [hs] at hs3
      injection hs3 with hs3
      subst hs3
      obtain ⟨-, hsuc, -, htot⟩ := copyLoop_basic _ _ _ _ _ _ _ _ hloop
      obtain ⟨-, hsort, -, hlast⟩ :=
        copyLoop_valid _ _ _ _ _ hv _ _ _ _ hloop (by omega)
      rw [hev]
      exact ⟨hsort, htot, fun hc => hlast (hsuc.mpr hc) rfl⟩
  · intro out h
    rcases moveOp_characterize _ _ _ _ _ _ _ _ _ h with ⟨hev, -⟩ |
      ⟨fsrc3, hs3, -, hev, -, -, -⟩ |
      ⟨fsrc3, lout, hs3, -, hloop, hev, -, -, -, -⟩
    · rw [hev]
      refine ⟨by simp [progressCompleteds], ?_, ?_⟩
      · intro t ht
        simp [progressTotals] at ht
      · intro hc
        simp at hc
    · rw [hs2] at hs3
      injection hs3 with hs3
      subst hs3
      rw [hev]
      refine ⟨?_, ?_, ?_⟩
      · rw [progressCompleteds_append, progressCompleteds_sendProgress]
        simp [progressCompleteds]
      · intro t ht
        rw [progressTotals_append, progressTotals_sendProgress] at ht
        simp [progressTotals] at ht
        exact ht
      · intro hc
        rw [progressCompleteds_append, progressCompleteds_sendProgress]
        simp [progressCompleteds]
    · rw [hs2] at hs3
      injection hs3 with hs3
      subst hs3
      obtain ⟨-, hsuc, -, htot⟩ := copyLoop_basic _ _ _ _ _ _ _ _ hloop
      obtain ⟨-, hsort, -, hlast⟩ :=
        copyLoop_valid _ _ _ _ _ hv2 _ _ _ _ hloop (by omega)
      rw [hev]
      exact ⟨hsort, htot, fun hc => hlast (hsuc.mpr hc) rfl⟩

/-- Witness for C6 at a concrete successful copy with progress requested:
updates (1,1), (1,1) are non-decreasing with totals 1 and final value 1. -/
theorem progress_monotone_and_final_total_witness :
    List.Sorted (· ≤ ·)
      (progressCompleteds [Ev.progress 1 1, Ev.progress 1 1, Ev.complete]) ∧
    (∀ t, t ∈ progressTotals [Ev.progress 1 1, Ev.progress 1 1, Ev.complete] →
      t = 1) ∧
    (Ev.complete ∈ [Ev.progress 1 1, Ev.progress 1 1, Ev.complete] →
      (progressCompleteds
        [Ev.progress 1 1, Ev.progress 1 1, Ev.complete]).getLast? = some 1) := by
  exact (progress_monotone_and_final_total [("s", ⟨[7], 420, 0⟩)]
    [("s", ⟨[7], 420, 5⟩)] "s" "d" "s" "d" 0 5 ⟨false, false, false⟩
    ⟨false, false, false, false, false⟩ [RRes.bytes [7], RRes.bytes []]
    [RRes.bytes [7], RRes.bytes []] [some 1] [some 1] ⟨[7], 420, 0⟩
    ⟨[7], 420, 5⟩ (by decide)
    (ValidReads.chunk [7] [] [RRes.bytes []] (by simp) (by decide)
      (ValidReads.eof []))
    (by decide)
    (ValidReads.chunk [7] [] [RRes.bytes []] (by simp) (by decide)
      (ValidReads.eof []))).1
    ⟨[("d", ⟨[7], 420, 0⟩), ("s", ⟨[7], 420, 0⟩)],
      [Ev.progress 1 1, Ev.progress 1 1, Ev.complete], 2, 2⟩ (by decide)

/-! ### Claim C7 -/

/-- C7, counterexample: the claim fails when source and destination are the
same path (necessarily the same device).  The run removes the destination —
which is the source — and the rename then has nothing to move, so the file is
destroyed: nothing is at the path afterwards, yet one `(size, size)` progress
update and a success completion are delivered. -/
theorem move_same_path_loses_file :
    (moveOp [("p", ⟨[1, 2, 3], 420, 7⟩)] "p" "p" true 7
        ⟨false, false, false, false, false⟩ [] []).map
      (fun o => (o.events, fsLookup o.fs "p")) =
      some ([Ev.progress 3 3, Ev.complete], none) := by
  decide

/-- C7, amended: for every move of DISTINCT paths whose destination resolves
to the source's device and whose rename succeeds, the operation consults no
read or write results (no bytes are copied: the run is the one obtained with
empty syscall oracles), closes both descriptors it opened, removes the
destination and renames the source onto it — afterwards the source's file sits
at the destination path and nothing at the source path — and delivers exactly
one progress update `(size, size)` followed by the success completion. -/
theorem same_device_move_distinct_paths
    (fs : FS) (src dst : String) (newDev : Nat) (reads : List RRes)
    (ws : List (Option Nat)) (fsrc : File)
    (hs : fsLookup fs src = some fsrc)
    (hdev : fsrc.dev = dstOpenDev fs dst newDev)
    (hne : src ≠ dst) :
    ∃ out,
      moveOp fs src dst true newDev ⟨false, false, false, false, false⟩
        reads ws = some out ∧
      moveOp fs src dst true newDev ⟨false, false, false, false, false⟩
        [] [] = some out ∧
      out.events = [Ev.progress fsrc.content.length fsrc.content.length,
        Ev.complete] ∧
      fsLookup out.fs dst = some fsrc ∧
      fsLookup out.fs src = none ∧
      out.opened = 2 ∧ out.closed = 2 := by
  have hlook : fsLookup (fsRemove fs dst) src = some fsrc := by
    rw [fsLookup_fsRemove_ne fs dst src hne]
    exact hs
  refine ⟨⟨fsSet (fsRemove (fsRemove fs dst) src) dst fsrc,
    [Ev.progress fsrc.content.length fsrc.content.length, Ev.complete], 2, 2⟩,
    ?_, ?_, rfl, fsLookup_fsSet_self _ _ _, ?_, rfl, rfl⟩
  · rw [moveOp, hs]
    simp [hdev, fsRemove_fsSet_self, sendProgress, fsRename, hlook]
  · rw [moveOp, hs]
    simp [hdev, fsRemove_fsSet_self, sendProgress, fsRename, hlook]
  · rw [fsLookup_fsSet_ne _ _ _ _ hne, fsLookup_fsRemove_self]

/-- Witness for the amended C7 at a concrete same-device move over distinct
paths with a pre-existing destination. -/
theorem same_device_move_distinct_paths_witness :
    ∃ out,
      moveOp [("s", (⟨[1, 2], 420, 7⟩ : File)), ("d", ⟨[5], 9, 7⟩)] "s" "d"
        true 7 ⟨false, false, false, false, false⟩ [] [] = some out ∧
      moveOp [("s", (⟨[1, 2], 420, 7⟩ : File)), ("d", ⟨[5], 9, 7⟩)] "s" "d"
        true 7 ⟨false, false, false, false, false⟩ [] [] = some out ∧
      out.events = [Ev.progress 2 2, Ev.complete] ∧
      fsLookup out.fs "d" = some ⟨[1, 2], 420, 7⟩ ∧
      fsLookup out.fs "s" = none ∧
      out.opened = 2 ∧ out.closed = 2 :=
  same_device_move_distinct_paths
    [("s", ⟨[1, 2], 420, 7⟩), ("d", ⟨[5], 9, 7⟩)] "s" "d" 7 [] []
    ⟨[1, 2], 420, 7⟩ (by decide) (by decide) (by decide)

/-! ### Claim C8 -/

/-- C8: a cross-device move that signals success has exactly the effect of a
copy followed by deletion of the source: the whole run equals the `Copy` run
with the source dropped from its final filesystem, the destination holds the
original source content, and the source path no longer exists. -/
theorem cross_device_move_refines_copy_then_delete
    (fs : FS) (src dst : String) (up : Bool) (newDev : Nat) (reads : List RRes)
    (ws : List (Option Nat)) (out : OpOut) (fsrc : File)
    (hs : fsLookup fs src = some fsrc)
    (hdev : ¬fsrc.dev = dstOpenDev fs dst newDev)
    (hv : ValidReads fsrc.content reads)
    (h : moveOp fs src dst up newDev ⟨false, false, false, false, false⟩
      reads ws = some out)
    (hc : Ev.complete ∈ out.events) :
    (fsLookup out.fs dst).map File.content = some fsrc.content ∧
    fsLookup out.fs src = none ∧
    moveOp fs src dst up newDev ⟨false, false, false, false, false⟩ reads ws =
      Option.map (fun o => ⟨fsRemove o.fs src, o.events, o.opened, o.closed⟩)
        (copyOp fs src dst up newDev ⟨false, false, false⟩ reads ws) := by
  have hne : src ≠ dst := by
    intro heq
    rw [heq] at hs
    apply hdev
    rw [dstOpenDev, hs]
  rcases moveOp_characterize _ _ _ _ _ _ _ _ _ h with ⟨hev, -⟩ |
    ⟨fsrc2, hs2, hdev2, -, -, -, -⟩ |
    ⟨fsrc2, lout, hs2, -, hloop, hev, ho, hcl, hsf, -⟩
  · rw [hev] at hc
    simp at hc
  · rw [hs] at hs2
    injection hs2 with hs2
    subst hs2
    exact absurd hdev2 hdev
  · rw [hs] at hs2
    injection hs2 with hs2
    subst hs2
    obtain ⟨-, hsuc, -, -⟩ := copyLoop_basic _ _ _ _ _ _ _ _ hloop
    have hsucc : lout.success = true := hsuc.mpr (hev ▸ hc)
    have hwr : lout.written = fsrc.content :=
      (copyLoop_valid _ _ _ _ _ hv _ _ _ _ hloop (by omega)).1 hsucc
    have hfs := hsf hsucc
    refine ⟨?_, ?_, ?_⟩
    · rw [hfs, fsLookup_fsRemove_ne _ _ _ (fun hd : dst = src => hne hd.symm),
        fsLookup_fsSet_self]
      simp [hwr]
    · rw [hfs, fsLookup_fsRemove_self]
    · have hcopy : copyOp fs src dst up newDev ⟨false, false, false⟩ reads ws =
          some ⟨fsSet fs dst ⟨lout.written, dstOpenMode fs dst fsrc.mode,
            dstOpenDev fs dst newDev⟩, lout.events, 2, 2⟩ := by
        rw [copyOp, hs]
        simp only [streamCopyFS]
        rw [hloop]
        simp [hsucc, fsSet_fsSet]
      rw [h, hcopy]
      obtain ⟨ofs, oev, oop, ocl⟩ := out
      simp only at hfs hev ho hcl
      rw [Option.map, hfs, hev, ho, hcl]

/-- Witness for C8 at a concrete cross-device move. -/
theorem cross_device_move_refines_copy_then_delete_witness :
    (fsLookup [("d", (⟨[1, 2], 420, 8⟩ : File))] "d").map File.content =
      some [1, 2] ∧
    fsLookup [("d", (⟨[1, 2], 420, 8⟩ : File))] "s" = none ∧
    moveOp [("s", ⟨[1, 2], 420, 7⟩)] "s" "d" true 8
        ⟨false, false, false, false, false⟩
        [RRes.bytes [1, 2], RRes.bytes []] [some 2] =
      Option.map (fun o => ⟨fsRemove o.fs "s", o.events, o.opened, o.closed⟩)
        (copyOp [("s", ⟨[1, 2], 420, 7⟩)] "s" "d" true 8 ⟨false, false, false⟩
          [RRes.bytes [1, 2], RRes.bytes []] [some 2]) :=
  cross_device_move_refines_copy_then_delete [("s", ⟨[1, 2], 420, 7⟩)] "s" "d"
    true 8 [RRes.bytes [1, 2], RRes.bytes []] [some 2]
    ⟨[("d", ⟨[1, 2], 420, 8⟩)],
      [Ev.progress 2 2, Ev.progress 2 2, Ev.complete], 2, 2⟩
    ⟨[1, 2], 420, 7⟩ (by decide) (by decide)
    (ValidReads.chunk [1, 2] [] [RRes.bytes []] (by simp) (by decide)
      (ValidReads.eof []))
    (by decide) (by decide)

/-! ### Claim C10 -/

/-- C10: a cross-device move that fails mid-transfer (read or write error)
does not delete the source: the source file is still at its original path
with its original content, mode and device afterwards — only the success
path, after the whole copy completed, removes it. -/
theorem failed_cross_device_move_preserves_source
    (fs : FS) (src dst : String) (up : Bool) (newDev : Nat) (reads : List RRes)
    (ws : List (Option Nat)) (out : OpOut) (fsrc : File)
    (hs : fsLookup fs src = some fsrc)
    (hdev : ¬fsrc.dev = dstOpenDev fs dst newDev)
    (h : moveOp fs src dst up newDev ⟨false, false, false, false, false⟩
      reads ws = some out)
    (herr : Ev.error ∈ out.events) :
    fsLookup out.fs src = some fsrc := by
  have hne : src ≠ dst := by
    intro heq
    rw [heq] at hs
    apply hdev
    rw [dstOpenDev, hs]
  rcases moveOp_characterize _ _ _ _ _ _ _ _ _ h with ⟨-, hfs⟩ |
    ⟨fsrc2, hs2, hdev2, -, -, -, -⟩ |
    ⟨fsrc2, lout, hs2, -, hloop, hev, -, -, -, hff⟩
  · rw [hfs, fsLookup_fsRemove_ne _ _ _ hne]
    exact hs
  · rw [hs] at hs2
    injection hs2 with hs2
    subst hs2
    exact absurd hdev2 hdev
  · obtain ⟨-, -, herr2, -⟩ := copyLoop_basic _ _ _ _ _ _ _ _ hloop
    rw [hff (herr2.mpr (hev ▸ herr)), fsLookup_fsRemove_ne _ _ _ hne]
    exact hs

/-- Witness for C10: a cross-device move failing on its first write leaves
the source file in place. -/
theorem failed_cross_device_move_preserves_source_witness :
    fsLookup [("s", (⟨[1, 2], 420, 7⟩ : File))] "s" = some ⟨[1, 2], 420, 7⟩ :=
  failed_cross_device_move_preserves_source [("s", ⟨[1, 2], 420, 7⟩)] "s" "d"
    true 8 [RRes.bytes [1, 2]] [none]
    ⟨[("s", ⟨[1, 2], 420, 7⟩)], [Ev.error], 2, 2⟩ ⟨[1, 2], 420, 7⟩
    (by decide) (by decide) (by decide) (by decide)

end NativeFS
